import Mathlib

/-!
Verification of a fixed-capacity circular (ring) buffer.

The definitions below are a shallow embedding of the C++ template class
`RingBuffer<T>` (files `ringbuff.hpp` / `ringbuff.cpp`).  The backing
`std::vector<T>` is modelled as a `List α` of length `capacity_`; the
`size_t` fields `capacity_`, `head_`, `tail_`, `size_` become `Nat`
(all arithmetic in the source stays far below any overflow, and every
`% capacity_` is on a positive capacity, so plain `Nat` is faithful).
Exceptions become `Except RBError`, with one error constructor per
distinct throw site.  Out-of-bounds vector reads are modelled with
`List.getD` (the proofs establish that every index used is in bounds).
-/

/-- Error kinds, one per distinct throw site of the C++ class:
`std::invalid_argument` in the constructor, `std::out_of_range` in
`pop`/`front` (empty buffer), and `std::out_of_range` in `at`
(index out of bounds). -/
inductive RBError : Type where
  | invalidArgument : RBError
  | emptyBufferError : RBError
  | indexOutOfBounds : RBError
  deriving DecidableEq

/-- The state of a `RingBuffer<T>`: the fields `buffer_`, `capacity_`,
`head_`, `tail_`, `size_` of the C++ class. -/
structure RingBuffer (α : Type) where
  buffer_ : List α
  capacity_ : Nat
  head_ : Nat
  tail_ : Nat
  size_ : Nat
  deriving DecidableEq

variable {α : Type}

/-- `RingBuffer(size_t capacity)`: member initializers build a vector of
`capacity` default-constructed slots (`d` models the default value);
the body throws `std::invalid_argument` when `capacity == 0`, so no
object is produced in that case. -/
def RingBuffer.new (capacity : Nat) (d : α) : Except RBError (RingBuffer α) :=
  if capacity = 0 then
    Except.error RBError.invalidArgument
  else
    Except.ok { buffer_ := List.replicate capacity d, capacity_ := capacity,
                head_ := 0, tail_ := 0, size_ := 0 }

/-- `void push(const T& item)` (the move overload has the identical body):
write at `tail_`, advance `tail_` modulo `capacity_`; grow `size_` when
not full, otherwise advance `head_` (overwriting the oldest element). -/
def RingBuffer.push (b : RingBuffer α) (item : α) : RingBuffer α :=
  let buf := b.buffer_.set b.tail_ item
  let t := (b.tail_ + 1) % b.capacity_
  if b.size_ < b.capacity_ then
    { b with buffer_ := buf, tail_ := t, size_ := b.size_ + 1 }
  else
    { b with buffer_ := buf, tail_ := t, head_ := (b.head_ + 1) % b.capacity_ }

/-- `void emplace(Args&&... args)`: constructs `T(args...)` (modelled as the
already-constructed value `item`) and then performs the same steps as
`push`. -/
def RingBuffer.emplace (b : RingBuffer α) (item : α) : RingBuffer α :=
  let buf := b.buffer_.set b.tail_ item
  let t := (b.tail_ + 1) % b.capacity_
  if b.size_ < b.capacity_ then
    { b with buffer_ := buf, tail_ := t, size_ := b.size_ + 1 }
  else
    { b with buffer_ := buf, tail_ := t, head_ := (b.head_ + 1) % b.capacity_ }

/-- `bool empty() const { return size_ == 0; }` -/
def RingBuffer.empty (b : RingBuffer α) : Bool := b.size_ == 0

/-- `bool full() const { return size_ == capacity_; }` -/
def RingBuffer.full (b : RingBuffer α) : Bool := b.size_ == b.capacity_

/-- `size_t size() const { return size_; }` -/
def RingBuffer.size (b : RingBuffer α) : Nat := b.size_

/-- `size_t capacity() const { return capacity_; }` -/
def RingBuffer.capacity (b : RingBuffer α) : Nat := b.capacity_

/-- `bool try_push(const T& item)`: returns `false` doing nothing when
full, otherwise delegates to `push` and returns `true`.  The result pair
is (return value, buffer state afterwards). -/
def RingBuffer.try_push (b : RingBuffer α) (item : α) : Bool × RingBuffer α :=
  if b.full then (false, b) else (true, b.push item)

/-- `T pop()`: throws on an empty buffer; otherwise moves out the element
at `head_`, advances `head_` modulo `capacity_`, decrements `size_`. -/
def RingBuffer.pop [Inhabited α] (b : RingBuffer α) :
    Except RBError (α × RingBuffer α) :=
  if b.empty then Except.error RBError.emptyBufferError
  else
    Except.ok (b.buffer_.getD b.head_ default,
      { b with head_ := (b.head_ + 1) % b.capacity_, size_ := b.size_ - 1 })

/-- `bool try_pop(T& out_item)`: returns `false` leaving everything (the
caller's `out_item` included) unchanged when empty; otherwise writes the
element at `head_` to `out_item`, advances `head_`, decrements `size_`,
returns `true`.  The result triple is (return value, `out_item`
afterwards, buffer state afterwards). -/
def RingBuffer.try_pop [Inhabited α] (b : RingBuffer α) (out_item : α) :
    Bool × α × RingBuffer α :=
  if b.empty then (false, out_item, b)
  else
    (true, b.buffer_.getD b.head_ default,
      { b with head_ := (b.head_ + 1) % b.capacity_, size_ := b.size_ - 1 })

/-- `const T& front() const`: throws on an empty buffer, otherwise reads
the element at `head_` without any mutation. -/
def RingBuffer.front [Inhabited α] (b : RingBuffer α) : Except RBError α :=
  if b.empty then Except.error RBError.emptyBufferError
  else Except.ok (b.buffer_.getD b.head_ default)

/-- `T& at(size_t index)` (the const overload is identical): throws when
`index >= size_`, otherwise reads slot `(head_ + index) % capacity_`
without any mutation.  (`at` is a Lean keyword, hence the underscore.) -/
def RingBuffer.at_ [Inhabited α] (b : RingBuffer α) (index : Nat) :
    Except RBError α :=
  if index ≥ b.size_ then Except.error RBError.indexOutOfBounds
  else Except.ok (b.buffer_.getD ((b.head_ + index) % b.capacity_) default)

/-- `void clear()`: resets `head_`, `tail_`, `size_` to `0`; the backing
storage is untouched. -/
def RingBuffer.clear (b : RingBuffer α) : RingBuffer α :=
  { b with head_ := 0, tail_ := 0, size_ := 0 }

/-- The nested `RingBufferIterator` class: a pointer to the vector's data
(modelled as the list itself), the current logical index, and the snapshot
of the buffer's head and capacity taken at creation. -/
structure RingBufferIterator (α : Type) where
  data_ptr_ : List α
  current_logical_index_ : Nat
  buffer_head_ : Nat
  buffer_capacity_ : Nat

/-- `operator*`: reads
`data_ptr_[(buffer_head_ + current_logical_index_) % buffer_capacity_]`. -/
def RingBufferIterator.deref [Inhabited α] (it : RingBufferIterator α) : α :=
  it.data_ptr_.getD
    ((it.buffer_head_ + it.current_logical_index_) % it.buffer_capacity_) default

/-- `operator++`: increments `current_logical_index_`. -/
def RingBufferIterator.inc (it : RingBufferIterator α) : RingBufferIterator α :=
  { it with current_logical_index_ := it.current_logical_index_ + 1 }

/-- `operator==`: compares only the logical indices. -/
def RingBufferIterator.iterEq (a b : RingBufferIterator α) : Bool :=
  a.current_logical_index_ == b.current_logical_index_

/-- `begin()`: iterator at logical index `0` over the current buffer. -/
def RingBuffer.begin (b : RingBuffer α) : RingBufferIterator α :=
  { data_ptr_ := b.buffer_, current_logical_index_ := 0,
    buffer_head_ := b.head_, buffer_capacity_ := b.capacity_ }

/-- `end()`: iterator whose logical index is the `size_` captured at
creation time (`end` is a Lean keyword, hence the underscore). -/
def RingBuffer.end_ (b : RingBuffer α) : RingBufferIterator α :=
  { data_ptr_ := b.buffer_, current_logical_index_ := b.size_,
    buffer_head_ := b.head_, buffer_capacity_ := b.capacity_ }

/-- One step of the canonical iterator loop
`for (auto it = begin; it != end; ++it) yield *it;` with explicit fuel.
The fuel only bounds the recursion: the loop stops at the `!=` test
exactly as in C++, and `size_ + 1` fuel is always enough (see the
traversal theorems). -/
def iterTraverseAux [Inhabited α] (stop : RingBufferIterator α) :
    RingBufferIterator α → Nat → List α
  | _, 0 => []
  | it, fuel + 1 =>
    if it.iterEq stop then [] else it.deref :: iterTraverseAux stop it.inc fuel

/-- The full traversal from `begin()` to `end()`. -/
def RingBuffer.traversal [Inhabited α] (b : RingBuffer α) : List α :=
  iterTraverseAux b.end_ b.begin (b.size_ + 1)

/-- The mutating operations a client can invoke on an existing buffer
(`front`, `at`, `empty`, `full`, `size`, `capacity` are `const` and do not
change state).  `tryPop` carries the caller's `out_item` value. -/
inductive Op (α : Type) : Type where
  | push : α → Op α
  | emplace : α → Op α
  | tryPush : α → Op α
  | pop : Op α
  | tryPop : α → Op α
  | clear : Op α

/-- The buffer state after one operation.  A `pop` on an empty buffer
throws, leaving the state unchanged. -/
def applyOp [Inhabited α] (b : RingBuffer α) : Op α → RingBuffer α
  | Op.push x => b.push x
  | Op.emplace x => b.emplace x
  | Op.tryPush x => (b.try_push x).2
  | Op.pop =>
    match b.pop with
    | Except.ok p => p.2
    | Except.error _ => b
  | Op.tryPop out => (b.try_pop out).2.2
  | Op.clear => b.clear

/-- The buffer state after a sequence of operations. -/
def run [Inhabited α] (b : RingBuffer α) (ops : List (Op α)) : RingBuffer α :=
  ops.foldl applyOp b

/-- The logical contents of the buffer, front first: the element of slot
`(head_ + i) % capacity_` for each logical index `i < size_`. -/
def RingBuffer.toList [Inhabited α] (b : RingBuffer α) : List α :=
  (List.range b.size_).map
    (fun i => b.buffer_.getD ((b.head_ + i) % b.capacity_) default)

/-- Push a whole list of values, first element first. -/
def RingBuffer.pushAll (b : RingBuffer α) (vs : List α) : RingBuffer α :=
  vs.foldl RingBuffer.push b

/-- The values returned by `n` successive `pop` calls (stopping early if a
`pop` throws). -/
def popN [Inhabited α] : RingBuffer α → Nat → List α
  | _, 0 => []
  | b, n + 1 =>
    match b.pop with
    | Except.ok p => p.1 :: popN p.2 n
    | Except.error _ => []

/-- Popping until empty: `size_` pops. -/
def RingBuffer.drain [Inhabited α] (b : RingBuffer α) : List α := popN b b.size_

/-- The structural invariants of the buffer: the backing storage has
exactly `capacity_` slots, the capacity is positive, `head_` and `tail_`
are in `[0, capacity_)`, `size_ ≤ capacity_`, and
`tail_ = (head_ + size_) % capacity_`. -/
def RingBuffer.Inv (b : RingBuffer α) : Prop :=
  b.buffer_.length = b.capacity_ ∧ 1 ≤ b.capacity_ ∧ b.head_ < b.capacity_ ∧
  b.tail_ < b.capacity_ ∧ b.size_ ≤ b.capacity_ ∧
  b.tail_ = (b.head_ + b.size_) % b.capacity_

theorem RingBuffer.toList_length [Inhabited α] (b : RingBuffer α) :
    b.toList.length = b.size_ := by
  simp [RingBuffer.toList]

theorem mod_shift_ne {c hd i j : Nat} (_hc : 0 < c) (hij : i < j) (hjc : j - i < c) :
    (hd + i) % c ≠ (hd + j) % c := by
  intro heq
  have hmod : i ≡ j [MOD c] := Nat.ModEq.add_left_cancel' hd heq
  have hdvd : c ∣ j - i := (Nat.modEq_iff_dvd' (Nat.le_of_lt hij)).mp hmod
  have hle : c ≤ j - i := Nat.le_of_dvd (by omega) hdvd
  omega

theorem getD_set_self {l : List α} {i : Nat} {x d : α} (hi : i < l.length) :
    (l.set i x).getD i d = x := by
  simp [List.getD_eq_getElem?_getD, List.getElem?_set_self hi]

theorem getD_set_ne {l : List α} {i j : Nat} (x d : α) (hij : i ≠ j) :
    (l.set i x).getD j d = l.getD j d := by
  simp [List.getD_eq_getElem?_getD, List.getElem?_set_ne hij]

theorem RingBuffer.push_lt {b : RingBuffer α} (hlt : b.size_ < b.capacity_) (x : α) :
    b.push x = { b with buffer_ := b.buffer_.set b.tail_ x,
                        tail_ := (b.tail_ + 1) % b.capacity_,
                        size_ := b.size_ + 1 } := by
  simp [RingBuffer.push, hlt]

theorem RingBuffer.push_ge {b : RingBuffer α} (hge : ¬ b.size_ < b.capacity_) (x : α) :
    b.push x = { b with buffer_ := b.buffer_.set b.tail_ x,
                        tail_ := (b.tail_ + 1) % b.capacity_,
                        head_ := (b.head_ + 1) % b.capacity_ } := by
  simp [RingBuffer.push, hge]

theorem RingBuffer.inv_push {b : RingBuffer α} (hb : b.Inv) (x : α) :
    (b.push x).Inv ∧ (b.push x).capacity_ = b.capacity_ := by
  obtain ⟨hlen, hc, hh, ht, hs, htl⟩ := hb
  by_cases hlt : b.size_ < b.capacity_
  · rw [RingBuffer.push_lt hlt]
    refine ⟨⟨?_, hc, hh, ?_, ?_, ?_⟩, rfl⟩
    · show (b.buffer_.set b.tail_ x).length = b.capacity_
      simp [hlen]
    · show (b.tail_ + 1) % b.capacity_ < b.capacity_
      exact Nat.mod_lt _ (by omega)
    · show b.size_ + 1 ≤ b.capacity_
      omega
    · show (b.tail_ + 1) % b.capacity_ = (b.head_ + (b.size_ + 1)) % b.capacity_
      rw [htl, Nat.mod_add_mod]
      congr 1
  · rw [RingBuffer.push_ge hlt]
    refine ⟨⟨?_, hc, ?_, ?_, hs, ?_⟩, rfl⟩
    · show (b.buffer_.set b.tail_ x).length = b.capacity_
      simp [hlen]
    · show (b.head_ + 1) % b.capacity_ < b.capacity_
      exact Nat.mod_lt _ (by omega)
    · show (b.tail_ + 1) % b.capacity_ < b.capacity_
      exact Nat.mod_lt _ (by omega)
    · show (b.tail_ + 1) % b.capacity_ = ((b.head_ + 1) % b.capacity_ + b.size_) % b.capacity_
      rw [htl, Nat.mod_add_mod, Nat.mod_add_mod]
      congr 1
      omega

theorem RingBuffer.emplace_eq_push (b : RingBuffer α) (x : α) :
    b.emplace x = b.push x := rfl

theorem RingBuffer.try_push_full {b : RingBuffer α} (hf : b.full = true) (x : α) :
    b.try_push x = (false, b) := by
  simp [RingBuffer.try_push, hf]

theorem RingBuffer.try_push_not_full {b : RingBuffer α} (hf : b.full = false) (x : α) :
    b.try_push x = (true, b.push x) := by
  simp [RingBuffer.try_push, hf]

theorem RingBuffer.inv_try_push {b : RingBuffer α} (hb : b.Inv) (x : α) :
    (b.try_push x).2.Inv ∧ (b.try_push x).2.capacity_ = b.capacity_ := by
  by_cases hf : b.full = true
  · rw [RingBuffer.try_push_full hf]
    exact ⟨hb, rfl⟩
  · rw [RingBuffer.try_push_not_full (by simpa using hf)]
    exact RingBuffer.inv_push hb x

theorem RingBuffer.pop_empty [Inhabited α] {b : RingBuffer α} (hz : b.size_ = 0) :
    b.pop = Except.error RBError.emptyBufferError := by
  simp [RingBuffer.pop, RingBuffer.empty, hz]

theorem RingBuffer.pop_pos [Inhabited α] {b : RingBuffer α} (hz : 0 < b.size_) :
    b.pop = Except.ok (b.buffer_.getD b.head_ default,
      { b with head_ := (b.head_ + 1) % b.capacity_, size_ := b.size_ - 1 }) := by
  simp [RingBuffer.pop, RingBuffer.empty, Nat.pos_iff_ne_zero.mp hz]

theorem RingBuffer.inv_pop [Inhabited α] {b b' : RingBuffer α} {x : α} (hb : b.Inv)
    (hpop : b.pop = Except.ok (x, b')) : b'.Inv ∧ b'.capacity_ = b.capacity_ := by
  obtain ⟨hlen, hc, hh, ht, hs, htl⟩ := hb
  by_cases hz : b.size_ = 0
  · rw [RingBuffer.pop_empty hz] at hpop
    exact absurd hpop (by simp)
  · rw [RingBuffer.pop_pos (by omega)] at hpop
    simp only [Except.ok.injEq, Prod.mk.injEq] at hpop
    obtain ⟨-, hb'⟩ := hpop
    subst hb'
    refine ⟨⟨hlen, hc, ?_, ht, ?_, ?_⟩, rfl⟩
    · show (b.head_ + 1) % b.capacity_ < b.capacity_
      exact Nat.mod_lt _ (by omega)
    · show b.size_ - 1 ≤ b.capacity_
      omega
    · show b.tail_ = ((b.head_ + 1) % b.capacity_ + (b.size_ - 1)) % b.capacity_
      rw [htl, Nat.mod_add_mod]
      congr 1
      omega

theorem RingBuffer.try_pop_empty [Inhabited α] {b : RingBuffer α} (hz : b.size_ = 0)
    (out : α) : b.try_pop out = (false, out, b) := by
  simp [RingBuffer.try_pop, RingBuffer.empty, hz]

theorem RingBuffer.try_pop_pos [Inhabited α] {b : RingBuffer α} (hz : 0 < b.size_)
    (out : α) : b.try_pop out = (true, b.buffer_.getD b.head_ default,
      { b with head_ := (b.head_ + 1) % b.capacity_, size_ := b.size_ - 1 }) := by
  simp [RingBuffer.try_pop, RingBuffer.empty, Nat.pos_iff_ne_zero.mp hz]

theorem RingBuffer.inv_try_pop [Inhabited α] {b : RingBuffer α} (hb : b.Inv) (out : α) :
    (b.try_pop out).2.2.Inv ∧ (b.try_pop out).2.2.capacity_ = b.capacity_ := by
  by_cases hz : b.size_ = 0
  · rw [RingBuffer.try_pop_empty hz]
    exact ⟨hb, rfl⟩
  · rw [RingBuffer.try_pop_pos (by omega)]
    obtain ⟨hlen, hc, hh, ht, hs, htl⟩ := hb
    refine ⟨⟨hlen, hc, ?_, ht, ?_, ?_⟩, rfl⟩
    · show (b.head_ + 1) % b.capacity_ < b.capacity_
      exact Nat.mod_lt _ (by omega)
    · show b.size_ - 1 ≤ b.capacity_
      omega
    · show b.tail_ = ((b.head_ + 1) % b.capacity_ + (b.size_ - 1)) % b.capacity_
      rw [htl, Nat.mod_add_mod]
      congr 1
      omega

theorem RingBuffer.inv_clear {b : RingBuffer α} (hb : b.Inv) :
    b.clear.Inv ∧ b.clear.capacity_ = b.capacity_ := by
  obtain ⟨hlen, hc, hh, ht, hs, htl⟩ := hb
  refine ⟨⟨hlen, hc, ?_, ?_, ?_, ?_⟩, rfl⟩
  · show 0 < b.capacity_
    omega
  · show 0 < b.capacity_
    omega
  · show 0 ≤ b.capacity_
    omega
  · show (0 : Nat) = (0 + 0) % b.capacity_
    simp

theorem inv_applyOp [Inhabited α] {b : RingBuffer α} (hb : b.Inv) (op : Op α) :
    (applyOp b op).Inv ∧ (applyOp b op).capacity_ = b.capacity_ := by
  cases op with
  | push x => exact RingBuffer.inv_push hb x
  | emplace x => rw [applyOp, RingBuffer.emplace_eq_push]; exact RingBuffer.inv_push hb x
  | tryPush x => exact RingBuffer.inv_try_push hb x
  | pop =>
    rw [applyOp]
    cases hpop : b.pop with
    | ok p => exact RingBuffer.inv_pop hb hpop
    | error e => exact ⟨hb, rfl⟩
  | tryPop out => exact RingBuffer.inv_try_pop hb out
  | clear => exact RingBuffer.inv_clear hb

theorem inv_run [Inhabited α] :
    ∀ (ops : List (Op α)) (b : RingBuffer α), b.Inv →
    (run b ops).Inv ∧ (run b ops).capacity_ = b.capacity_ := by
  intro ops
  induction ops with
  | nil => intro b hb; exact ⟨hb, rfl⟩
  | cons op ops ih =>
    intro b hb
    obtain ⟨h1, h2⟩ := inv_applyOp hb op
    obtain ⟨h3, h4⟩ := ih (applyOp b op) h1
    refine ⟨h3, ?_⟩
    show (run (applyOp b op) ops).capacity_ = b.capacity_
    rw [h4, h2]

theorem RingBuffer.new_ok {c : Nat} {d : α} {b : RingBuffer α}
    (h : RingBuffer.new c d = Except.ok b) :
    b = ⟨List.replicate c d, c, 0, 0, 0⟩ ∧ 1 ≤ c := by
  unfold RingBuffer.new at h
  by_cases hz : c = 0
  · simp [hz] at h
  · simp [hz] at h
    exact ⟨h.symm, by omega⟩

theorem RingBuffer.inv_new {c : Nat} {d : α} {b : RingBuffer α}
    (h : RingBuffer.new c d = Except.ok b) : b.Inv ∧ b.capacity_ = c := by
  obtain ⟨hb, hc⟩ := RingBuffer.new_ok h
  subst hb
  refine ⟨⟨?_, ?_, ?_, ?_, ?_, ?_⟩, rfl⟩
  · show (List.replicate c d).length = c
    simp
  · exact hc
  · show 0 < c
    omega
  · show 0 < c
    omega
  · show 0 ≤ c
    omega
  · show (0 : Nat) = (0 + 0) % c
    simp

theorem RingBuffer.toList_push_lt [Inhabited α] {b : RingBuffer α} (hb : b.Inv)
    (hlt : b.size_ < b.capacity_) (x : α) :
    (b.push x).toList = b.toList ++ [x] := by
  obtain ⟨hlen, hc, hh, ht, hs, htl⟩ := hb
  rw [RingBuffer.push_lt hlt]
  simp only [RingBuffer.toList]
  rw [List.range_succ, List.map_append]
  congr 1
  · apply List.map_congr_left
    intro i hi
    rw [List.mem_range] at hi
    apply getD_set_ne
    rw [htl]
    exact (mod_shift_ne hc hi (by omega)).symm
  · simp only [List.map_cons, List.map_nil]
    rw [← htl, getD_set_self (by omega)]

theorem RingBuffer.toList_push_full [Inhabited α] {b : RingBuffer α} (hb : b.Inv)
    (hful : ¬ b.size_ < b.capacity_) (x : α) :
    (b.push x).toList = b.toList.drop 1 ++ [x] := by
  obtain ⟨hlen, hc, hh, ht, hs, htl⟩ := hb
  have hsc : b.size_ = b.capacity_ := by omega
  have hth : b.tail_ = b.head_ := by
    rw [htl, hsc, Nat.add_mod_right, Nat.mod_eq_of_lt hh]
  rw [RingBuffer.push_ge hful]
  simp only [RingBuffer.toList]
  apply List.ext_getElem
  · simp only [List.length_map, List.length_range, List.length_append,
      List.length_drop, List.length_cons, List.length_nil]
    omega
  · intro n h1 h2
    simp only [List.length_map, List.length_range] at h1
    rw [List.getElem_map]
    simp only [List.getElem_range]
    by_cases hn : n < b.size_ - 1
    · rw [List.getElem_append_left (by
        simp only [List.length_drop, List.length_map, List.length_range]
        omega)]
      rw [List.getElem_drop, List.getElem_map]
      simp only [List.getElem_range]
      have hidx : b.head_ + 1 + n = b.head_ + (1 + n) := by omega
      have hne2 : b.tail_ ≠ (b.head_ + (1 + n)) % b.capacity_ := by
        rw [hth]
        have hne : (b.head_ + 0) % b.capacity_ ≠ (b.head_ + (1 + n)) % b.capacity_ :=
          mod_shift_ne hc (by omega) (by omega)
        rwa [Nat.add_zero, Nat.mod_eq_of_lt hh] at hne
      rw [Nat.mod_add_mod, hidx, getD_set_ne x default hne2]
    · have hn' : n = b.size_ - 1 := by omega
      subst hn'
      rw [List.getElem_append_right (by
        simp only [List.length_drop, List.length_map, List.length_range]
        omega)]
      rw [List.getElem_singleton]
      have hidx : b.head_ + 1 + (b.size_ - 1) = b.head_ + b.size_ := by omega
      rw [Nat.mod_add_mod, hidx, ← htl, getD_set_self (by omega)]

theorem popN_toList [Inhabited α] :
    ∀ (n : Nat) (b : RingBuffer α), b.Inv → b.size_ = n → popN b n = b.toList := by
  intro n
  induction n with
  | zero =>
    intro b _ hsz
    rw [popN, RingBuffer.toList, hsz]
    simp
  | succ n ih =>
    intro b hb hsz
    have hbc := hb
    obtain ⟨hlen, hc, hh, ht, hs, htl⟩ := hbc
    have hpop := RingBuffer.pop_pos (b := b) (show 0 < b.size_ by omega)
    have hstep : popN b (n + 1) = b.buffer_.getD b.head_ default ::
        popN { b with head_ := (b.head_ + 1) % b.capacity_, size_ := b.size_ - 1 } n := by
      rw [popN, hpop]
    rw [hstep]
    have hInv' := (RingBuffer.inv_pop hb hpop).1
    have hsz' : b.size_ - 1 = n := by omega
    rw [ih _ hInv' hsz']
    simp only [RingBuffer.toList]
    rw [hsz]
    simp only [Nat.add_sub_cancel]
    rw [List.range_succ_eq_map, List.map_cons, List.map_map]
    congr 1
    · rw [Nat.add_zero, Nat.mod_eq_of_lt hh]
    · apply List.map_congr_left
      intro i hi
      simp only [Function.comp_apply]
      rw [Nat.mod_add_mod]
      have hidx : b.head_ + 1 + i = b.head_ + Nat.succ i := by omega
      rw [hidx]

theorem RingBuffer.pushAll_toList [Inhabited α] :
    ∀ (vs : List α) (b : RingBuffer α), b.Inv →
      (b.pushAll vs).Inv ∧ (b.pushAll vs).capacity_ = b.capacity_ ∧
      (b.pushAll vs).toList =
        (b.toList ++ vs).drop (b.toList.length + vs.length - b.capacity_) := by
  intro vs
  induction vs with
  | nil =>
    intro b hb
    have hcap : b.size_ ≤ b.capacity_ := hb.2.2.2.2.1
    have hlen : b.toList.length = b.size_ := b.toList_length
    refine ⟨hb, rfl, ?_⟩
    simp only [RingBuffer.pushAll, List.foldl_nil, List.append_nil, List.length_nil]
    have hzero : b.toList.length + 0 - b.capacity_ = 0 := by omega
    rw [hzero, List.drop_zero]
  | cons x vs ih =>
    intro b hb
    have hbc := hb
    obtain ⟨hblen, hc, hh, ht, hs, htl⟩ := hbc
    have hpush := RingBuffer.inv_push hb x
    obtain ⟨hI, hC, hT⟩ := ih (b.push x) hpush.1
    have hstep : b.pushAll (x :: vs) = (b.push x).pushAll vs := rfl
    rw [hstep]
    refine ⟨hI, by rw [hC, hpush.2], ?_⟩
    rw [hT, hpush.2]
    by_cases hlt : b.size_ < b.capacity_
    · rw [RingBuffer.toList_push_lt hb hlt x]
      rw [List.append_assoc, List.singleton_append]
      congr 1
      simp only [List.length_append, List.length_cons, List.length_nil]
      omega
    · rw [RingBuffer.toList_push_full hb hlt x]
      have hsc : b.size_ = b.capacity_ := by omega
      have hlenL : b.toList.length = b.capacity_ := by rw [b.toList_length, hsc]
      have hcount1 : (b.toList.drop 1 ++ [x]).length + vs.length - b.capacity_
          = vs.length := by
        simp only [List.length_append, List.length_drop, List.length_cons,
          List.length_nil]
        omega
      have hcount2 : b.toList.length + (x :: vs).length - b.capacity_
          = vs.length + 1 := by
        simp only [List.length_cons]
        omega
      have hrhs : (b.toList ++ x :: vs).drop (vs.length + 1)
          = (b.toList.drop 1 ++ (x :: vs)).drop vs.length := by
        rw [show vs.length + 1 = 1 + vs.length from by omega, ← List.drop_drop,
          List.drop_append_of_le_length (by omega)]
      rw [hcount1, hcount2, List.append_assoc, List.singleton_append, hrhs]

theorem iterTraverseAux_spec [Inhabited α] (data : List α) (hd c : Nat) :
    ∀ (k n i : Nat), i ≤ n → n - i < k →
      iterTraverseAux (⟨data, n, hd, c⟩ : RingBufferIterator α) ⟨data, i, hd, c⟩ k
        = (List.range (n - i)).map
            (fun j => data.getD ((hd + (i + j)) % c) default) := by
  intro k
  induction k with
  | zero =>
    intro n i hin hfuel
    omega
  | succ k ih =>
    intro n i hin hfuel
    rw [iterTraverseAux]
    by_cases heq : i = n
    · subst heq
      simp [RingBufferIterator.iterEq]
    · have hne : ¬ ((⟨data, i, hd, c⟩ : RingBufferIterator α).iterEq
          ⟨data, n, hd, c⟩ = true) := by
        simp [RingBufferIterator.iterEq]
        omega
      rw [if_neg hne]
      simp only [RingBufferIterator.inc, RingBufferIterator.deref]
      rw [ih n (i + 1) (by omega) (by omega)]
      rw [show n - i = (n - i - 1) + 1 from by omega]
      rw [List.range_succ_eq_map, List.map_cons, List.map_map]
      congr 1
      rw [show n - (i + 1) = n - i - 1 from by omega]
      apply List.map_congr_left
      intro j hj
      simp only [Function.comp_apply]
      have hidx : i + 1 + j = i + Nat.succ j := by omega
      rw [hidx]

theorem RingBuffer.traversal_eq_toList [Inhabited α] (b : RingBuffer α) :
    b.traversal = b.toList := by
  unfold RingBuffer.traversal RingBuffer.begin RingBuffer.end_
  have h := iterTraverseAux_spec (α := α) b.buffer_ b.head_ b.capacity_
    (b.size_ + 1) b.size_ 0 (by omega) (by omega)
  simp only [Nat.sub_zero, Nat.zero_add] at h
  rw [h]
  rfl

/-- A freshly constructed buffer of capacity 2 over `Nat`
(the result of `RingBuffer(2)` with value-initialised storage). -/
def buf2 : RingBuffer Nat := ⟨[0, 0], 2, 0, 0, 0⟩

/-- A full buffer of capacity 1 holding the single element `7`. -/
def buf1full : RingBuffer Nat := ⟨[7], 1, 0, 0, 1⟩

/-- A buffer of capacity 2 holding one element, `7`, at the front. -/
def buf2one : RingBuffer Nat := ⟨[7, 0], 2, 0, 1, 1⟩

/-- A sample operation sequence exercising every mutating operation. -/
def ops1 : List (Op Nat) :=
  [Op.push 5, Op.emplace 6, Op.pop, Op.tryPush 7, Op.clear, Op.tryPop 1,
   Op.push 8, Op.push 9, Op.push 10]

/-- C1: for every buffer successfully constructed with capacity `c ≥ 1` and
every sequence of operations (push, emplace, try_push, pop, try_pop, clear),
the structural invariants hold afterwards: `head` and `tail` are in
`[0, capacity)`, `size ≤ capacity`, `tail = (head + size) % capacity`, and
the capacity is still `c`.  (Quantifying over all operation lists covers
the state after each operation of any sequence.) -/
theorem spec_C1 [Inhabited α] (c : Nat) (d : α) (b0 : RingBuffer α)
    (hnew : RingBuffer.new c d = Except.ok b0) (ops : List (Op α)) :
    (run b0 ops).head_ < (run b0 ops).capacity_ ∧
    (run b0 ops).tail_ < (run b0 ops).capacity_ ∧
    (run b0 ops).size_ ≤ (run b0 ops).capacity_ ∧
    (run b0 ops).tail_
      = ((run b0 ops).head_ + (run b0 ops).size_) % (run b0 ops).capacity_ ∧
    (run b0 ops).capacity_ = c := by
  obtain ⟨hInv, hcap⟩ := RingBuffer.inv_new hnew
  obtain ⟨⟨hlen, hc, hh, ht, hs, htl⟩, hcap'⟩ := inv_run ops b0 hInv
  exact ⟨hh, ht, hs, htl, by rw [hcap', hcap]⟩

/-- Witness for C1 at capacity 2 and a concrete operation sequence. -/
theorem spec_C1_witness :
    RingBuffer.new 2 (0 : Nat) = Except.ok buf2 ∧
    ((run buf2 ops1).head_ < (run buf2 ops1).capacity_ ∧
     (run buf2 ops1).tail_ < (run buf2 ops1).capacity_ ∧
     (run buf2 ops1).size_ ≤ (run buf2 ops1).capacity_ ∧
     (run buf2 ops1).tail_
       = ((run buf2 ops1).head_ + (run buf2 ops1).size_) % (run buf2 ops1).capacity_ ∧
     (run buf2 ops1).capacity_ = 2) :=
  ⟨rfl, spec_C1 2 0 buf2 rfl ops1⟩

/-- C2: pushing `n ≤ c` values into a freshly constructed buffer of
capacity `c` and then popping `n` times returns exactly those values in
push order (FIFO). -/
theorem spec_C2 [Inhabited α] (c : Nat) (d : α) (b0 : RingBuffer α) (vs : List α)
    (hnew : RingBuffer.new c d = Except.ok b0) (hlen : vs.length ≤ c) :
    popN (b0.pushAll vs) vs.length = vs := by
  obtain ⟨hb0, hc⟩ := RingBuffer.new_ok hnew
  obtain ⟨hInv, hcap⟩ := RingBuffer.inv_new hnew
  obtain ⟨hI, hC, hT⟩ := RingBuffer.pushAll_toList vs b0 hInv
  have htl0 : b0.toList = [] := by
    subst hb0
    simp [RingBuffer.toList]
  rw [htl0] at hT
  simp only [List.nil_append, List.length_nil, Nat.zero_add] at hT
  have hdrop : vs.length - b0.capacity_ = 0 := by omega
  rw [hdrop, List.drop_zero] at hT
  have hsz : (b0.pushAll vs).size_ = vs.length := by
    rw [← RingBuffer.toList_length, hT]
  exact (popN_toList vs.length _ hI hsz).trans hT

/-- Witness for C2: pushing [11, 12] into a fresh capacity-3 buffer and
popping twice returns [11, 12]. -/
theorem spec_C2_witness :
    RingBuffer.new 3 (0 : Nat) = Except.ok (RingBuffer.mk [0, 0, 0] 3 0 0 0) ∧
    List.length [11, 12] ≤ 3 ∧
    popN ((RingBuffer.mk [0, 0, 0] 3 0 0 0).pushAll [11, 12])
      (List.length [11, 12]) = [11, 12] :=
  ⟨rfl, by decide, spec_C2 3 0 (RingBuffer.mk [0, 0, 0] 3 0 0 0) [11, 12] rfl (by decide)⟩

/-- C3: pushing `c + k` values (`k ≥ 1`) into a fresh buffer of capacity
`c` and then popping until empty yields exactly the last `c` pushed
values, in push order. -/
theorem spec_C3 [Inhabited α] (c k : Nat) (d : α) (b0 : RingBuffer α) (vs : List α)
    (hnew : RingBuffer.new c d = Except.ok b0) (hk : 1 ≤ k)
    (hlen : vs.length = c + k) :
    (b0.pushAll vs).drain = vs.drop k := by
  obtain ⟨hb0, hc⟩ := RingBuffer.new_ok hnew
  obtain ⟨hInv, hcap⟩ := RingBuffer.inv_new hnew
  obtain ⟨hI, hC, hT⟩ := RingBuffer.pushAll_toList vs b0 hInv
  have htl0 : b0.toList = [] := by
    subst hb0
    simp [RingBuffer.toList]
  rw [htl0] at hT
  simp only [List.nil_append, List.length_nil, Nat.zero_add] at hT
  have hdrop : vs.length - b0.capacity_ = k := by omega
  rw [hdrop] at hT
  unfold RingBuffer.drain
  exact (popN_toList (b0.pushAll vs).size_ _ hI rfl).trans hT

/-- Witness for C3: pushing [1, 2, 3] (c = 2, k = 1) into a fresh
capacity-2 buffer and draining yields [2, 3]. -/
theorem spec_C3_witness :
    RingBuffer.new 2 (0 : Nat) = Except.ok buf2 ∧
    1 ≤ 1 ∧ List.length [1, 2, 3] = 2 + 1 ∧
    (buf2.pushAll [1, 2, 3]).drain = List.drop 1 [1, 2, 3] :=
  ⟨rfl, by decide, by decide, spec_C3 2 1 0 buf2 [1, 2, 3] rfl (by decide) (by decide)⟩

/-- C4: `try_push` on a full buffer returns `false` and leaves the whole
observable state (`size()`, `front()`, every `at(i)`) unchanged; on a
non-full buffer it performs exactly the state change of `push` and
returns `true`. -/
theorem spec_C4 [Inhabited α] (b : RingBuffer α) (x : α) :
    (b.full = true →
      (b.try_push x).1 = false ∧
      (b.try_push x).2.size = b.size ∧
      (b.try_push x).2.front = b.front ∧
      ∀ i, (b.try_push x).2.at_ i = b.at_ i) ∧
    (b.full = false → b.try_push x = (true, b.push x)) := by
  constructor
  · intro hf
    rw [RingBuffer.try_push_full hf]
    exact ⟨rfl, rfl, rfl, fun i => rfl⟩
  · intro hf
    exact RingBuffer.try_push_not_full hf x

/-- Witness for C4: rejection on a full capacity-1 buffer, and push
delegation on a buffer with spare room. -/
theorem spec_C4_witness :
    ((buf1full.try_push 9).1 = false ∧ (buf1full.try_push 9).2.size = buf1full.size) ∧
    buf2one.try_push 9 = (true, buf2one.push 9) :=
  ⟨⟨((spec_C4 buf1full 9).1 rfl).1, ((spec_C4 buf1full 9).1 rfl).2.1⟩,
   (spec_C4 buf2one 9).2 rfl⟩

/-- C5: on an empty buffer `pop` and `front` fail with
`EmptyBufferError` (leaving the state unchanged — they return no new
state) and `try_pop` returns `false` leaving everything unchanged; on a
non-empty buffer `pop` and `try_pop` return the element at `head_`,
advance `head_ = (head_ + 1) % capacity_` and decrement `size_`. -/
theorem spec_C5 [Inhabited α] (b : RingBuffer α) :
    (b.size_ = 0 →
      b.pop = Except.error RBError.emptyBufferError ∧
      b.front = Except.error RBError.emptyBufferError ∧
      ∀ out, b.try_pop out = (false, out, b)) ∧
    (0 < b.size_ →
      b.pop = Except.ok (b.buffer_.getD b.head_ default,
        { b with head_ := (b.head_ + 1) % b.capacity_, size_ := b.size_ - 1 }) ∧
      ∀ out, b.try_pop out = (true, b.buffer_.getD b.head_ default,
        { b with head_ := (b.head_ + 1) % b.capacity_, size_ := b.size_ - 1 })) := by
  constructor
  · intro hz
    refine ⟨RingBuffer.pop_empty hz, ?_, fun out => RingBuffer.try_pop_empty hz out⟩
    simp [RingBuffer.front, RingBuffer.empty, hz]
  · intro hp
    exact ⟨RingBuffer.pop_pos hp, fun out => RingBuffer.try_pop_pos hp out⟩

/-- Witness for C5: failures on an empty capacity-2 buffer, and a
successful pop from the full capacity-1 buffer. -/
theorem spec_C5_witness :
    buf2.pop = Except.error RBError.emptyBufferError ∧
    buf2.front = Except.error RBError.emptyBufferError ∧
    buf2.try_pop 3 = (false, 3, buf2) ∧
    buf1full.pop = Except.ok (7, RingBuffer.mk [7] 1 0 0 0) :=
  ⟨((spec_C5 buf2).1 rfl).1, ((spec_C5 buf2).1 rfl).2.1,
   ((spec_C5 buf2).1 rfl).2.2 3,
   by rw [((spec_C5 buf1full).2 (by decide)).1]; rfl⟩

/-- C6: `at(i)` succeeds exactly when `i < size()`, returning the element
of slot `(head_ + i) % capacity_` (and, being a pure read, it mutates
nothing); for `i ≥ size()` it fails with `IndexOutOfBounds`. -/
theorem spec_C6 [Inhabited α] (b : RingBuffer α) (i : Nat) :
    ((∃ v, b.at_ i = Except.ok v) ↔ i < b.size_) ∧
    (i < b.size_ →
      b.at_ i = Except.ok (b.buffer_.getD ((b.head_ + i) % b.capacity_) default)) ∧
    (b.size_ ≤ i → b.at_ i = Except.error RBError.indexOutOfBounds) := by
  have hlt : i < b.size_ →
      b.at_ i = Except.ok (b.buffer_.getD ((b.head_ + i) % b.capacity_) default) := by
    intro h
    unfold RingBuffer.at_
    rw [if_neg (by omega)]
  have hge : b.size_ ≤ i → b.at_ i = Except.error RBError.indexOutOfBounds := by
    intro h
    unfold RingBuffer.at_
    rw [if_pos (by omega)]
  refine ⟨⟨?_, fun h => ⟨_, hlt h⟩⟩, hlt, hge⟩
  rintro ⟨v, hv⟩
  by_contra hcon
  rw [hge (by omega)] at hv
  exact absurd hv (by simp)

/-- Witness for C6 on the one-element capacity-1 buffer, at indices 0
(in bounds) and 5 (out of bounds). -/
theorem spec_C6_witness :
    (0 < buf1full.size_ ∧ buf1full.at_ 0 = Except.ok
      (buf1full.buffer_.getD ((buf1full.head_ + 0) % buf1full.capacity_) default)) ∧
    (buf1full.size_ ≤ 5 ∧ buf1full.at_ 5 = Except.error RBError.indexOutOfBounds) :=
  ⟨⟨by decide, (spec_C6 buf1full 0).2.1 (by decide)⟩,
   ⟨by decide, (spec_C6 buf1full 5).2.2 (by decide)⟩⟩

/-- C7: construction with capacity 0 fails with `InvalidArgument` and
produces no buffer; for every capacity `c ≥ 1` construction succeeds with
`size = 0`, `head = tail = 0`, and backing storage of exactly `c` slots. -/
theorem spec_C7 (c : Nat) (d : α) :
    (c = 0 → RingBuffer.new c d = Except.error RBError.invalidArgument) ∧
    (1 ≤ c → ∃ b : RingBuffer α, RingBuffer.new c d = Except.ok b ∧
      b.size_ = 0 ∧ b.head_ = 0 ∧ b.tail_ = 0 ∧ b.buffer_.length = c ∧
      b.capacity_ = c) := by
  constructor
  · intro hz
    unfold RingBuffer.new
    rw [if_pos hz]
  · intro hc
    refine ⟨⟨List.replicate c d, c, 0, 0, 0⟩, ?_, rfl, rfl, rfl, by simp, rfl⟩
    unfold RingBuffer.new
    rw [if_neg (by omega)]

/-- Witness for C7: capacity 0 fails, capacity 3 succeeds with the stated
post-conditions. -/
theorem spec_C7_witness :
    RingBuffer.new 0 (0 : Nat) = Except.error RBError.invalidArgument ∧
    (∃ b : RingBuffer Nat, RingBuffer.new 3 0 = Except.ok b ∧
      b.size_ = 0 ∧ b.head_ = 0 ∧ b.tail_ = 0 ∧ b.buffer_.length = 3 ∧
      b.capacity_ = 3) :=
  ⟨(spec_C7 0 0).1 rfl, (spec_C7 3 0).2 (by decide)⟩

/-- C8: the traversal from `begin()` to `end()` yields exactly `size_`
elements (the size captured in the end-marker at creation), the element
at logical position `j` being the one stored at slot
`(head_ + j) % capacity_`, i.e. the value `at(j)` returns. -/
theorem spec_C8 [Inhabited α] (b : RingBuffer α) :
    b.traversal.length = b.size_ ∧
    ∀ j, j < b.size_ →
      b.traversal.getD j default
        = b.buffer_.getD ((b.head_ + j) % b.capacity_) default ∧
      b.at_ j = Except.ok (b.traversal.getD j default) := by
  have htr := b.traversal_eq_toList
  constructor
  · rw [htr, b.toList_length]
  · intro j hj
    have hval : b.traversal.getD j default
        = b.buffer_.getD ((b.head_ + j) % b.capacity_) default := by
      rw [htr]
      unfold RingBuffer.toList
      rw [List.getD_eq_getElem _ _ (by simpa using hj), List.getElem_map]
      simp only [List.getElem_range]
    refine ⟨hval, ?_⟩
    unfold RingBuffer.at_
    rw [if_neg (by omega), hval]

/-- Witness for C8 on the one-element capacity-1 buffer. -/
theorem spec_C8_witness :
    buf1full.traversal.length = buf1full.size_ ∧
    buf1full.at_ 0 = Except.ok (buf1full.traversal.getD 0 default) :=
  ⟨(spec_C8 buf1full).1, ((spec_C8 buf1full).2 0 (by decide)).2⟩

/-- C9: for every successfully constructed buffer and every operation
sequence, the capacity stays positive (so each `% capacity_` divides by a
non-zero value) and every index used on the backing storage — `head_`,
`tail_`, and any `(… ) % capacity_` result — is strictly below the
storage length. -/
theorem spec_C9 [Inhabited α] (c : Nat) (d : α) (b0 : RingBuffer α)
    (hnew : RingBuffer.new c d = Except.ok b0) (ops : List (Op α)) :
    1 ≤ (run b0 ops).capacity_ ∧
    (run b0 ops).buffer_.length = (run b0 ops).capacity_ ∧
    (run b0 ops).head_ < (run b0 ops).buffer_.length ∧
    (run b0 ops).tail_ < (run b0 ops).buffer_.length ∧
    ∀ i : Nat, i % (run b0 ops).capacity_ < (run b0 ops).buffer_.length := by
  obtain ⟨hInv, hcap⟩ := RingBuffer.inv_new hnew
  obtain ⟨⟨hlen, hc, hh, ht, hs, htl⟩, hcap'⟩ := inv_run ops b0 hInv
  refine ⟨hc, hlen, by omega, by omega, ?_⟩
  intro i
  have hmod := Nat.mod_lt i (show 0 < (run b0 ops).capacity_ from hc)
  omega

/-- Witness for C9 at capacity 2 and a concrete operation sequence. -/
theorem spec_C9_witness :
    RingBuffer.new 2 (0 : Nat) = Except.ok buf2 ∧
    (1 ≤ (run buf2 ops1).capacity_ ∧
     (run buf2 ops1).buffer_.length = (run buf2 ops1).capacity_ ∧
     (run buf2 ops1).head_ < (run buf2 ops1).buffer_.length ∧
     (run buf2 ops1).tail_ < (run buf2 ops1).buffer_.length ∧
     ∀ i : Nat, i % (run buf2 ops1).capacity_ < (run buf2 ops1).buffer_.length) :=
  ⟨rfl, spec_C9 2 0 buf2 rfl ops1⟩

/-- C10: `try_pop` on an empty buffer returns `false` without touching the
caller's `out_item` (or the buffer); `out_item` receives a value exactly
when `try_pop` returns `true`, namely the element at `head_`. -/
theorem spec_C10 [Inhabited α] (b : RingBuffer α) (out : α) :
    (b.size_ = 0 → b.try_pop out = (false, out, b)) ∧
    ((b.try_pop out).1 = false →
      (b.try_pop out).2.1 = out ∧ (b.try_pop out).2.2 = b) ∧
    ((b.try_pop out).1 = true →
      (b.try_pop out).2.1 = b.buffer_.getD b.head_ default) := by
  by_cases hz : b.size_ = 0
  · refine ⟨fun _ => RingBuffer.try_pop_empty hz out, ?_, ?_⟩
    · rw [RingBuffer.try_pop_empty hz out]
      intro _
      exact ⟨rfl, rfl⟩
    · rw [RingBuffer.try_pop_empty hz out]
      intro h
      simp at h
  · have hp : 0 < b.size_ := by omega
    refine ⟨fun h => absurd h hz, ?_, ?_⟩
    · rw [RingBuffer.try_pop_pos hp out]
      intro h
      simp at h
    · rw [RingBuffer.try_pop_pos hp out]
      intro _
      rfl

/-- Witness for C10: an empty buffer leaves `out_item = 3` untouched; the
full capacity-1 buffer assigns the head element. -/
theorem spec_C10_witness :
    buf2.try_pop 3 = (false, 3, buf2) ∧
    (buf2.try_pop 3).2.1 = 3 ∧
    (buf1full.try_pop 0).2.1 = buf1full.buffer_.getD buf1full.head_ default :=
  ⟨(spec_C10 buf2 3).1 rfl, ((spec_C10 buf2 3).2.1 (by decide)).1,
   (spec_C10 buf1full 0).2.2 (by decide)⟩
